import Mathlib

/-!
Verification development for the BitField library (src/bitfield.h, src/bitfield.c).

The C code is shallowly embedded: the `bitfield_t` struct becomes a Lean
structure whose `field` component is the list of 32-bit storage words (each a
`Nat` kept below `2 ^ 32`), and each C function becomes a pure Lean function,
with explicit `% 2 ^ 32` wherever the C `uint32_t` arithmetic wraps.
Out-of-range storage accesses (undefined behavior in C) are modelled totally:
`List.getD _ 0` for reads and `List.set` (a no-op out of range) for writes.
-/

namespace BitField

/-! Macro translations from src/bitfield.c. -/

/-- C macro LONG_BIT: sizeof(uint32_t) * 8. -/
def LONG_BIT : Nat := 32

/-- C macro BITMASK(b): 1UL << (b % LONG_BIT). -/
def BITMASK (b : Nat) : Nat := 1 <<< (b % LONG_BIT)

/-- C macro BITSLOT(b): b / LONG_BIT. -/
def BITSLOT (b : Nat) : Nat := b / LONG_BIT

/-- C macro BITOFFSET(index): index & 31u (equals index % 32 on unsigned). -/
def BITOFFSET (index : Nat) : Nat := index % 32

/-- C macro BITMASK32(nbits): (0u != nbits) ? ~0u >> (32 - nbits) : 0u. -/
def BITMASK32 (nbits : Nat) : Nat :=
  if nbits ≠ 0 then (2 ^ 32 - 1) >>> (32 - nbits) else 0

/-- C macro BITMASKMERGE(a, b, abits): b ^ ((a ^ b) & abits). -/
def BITMASKMERGE (a b abits : Nat) : Nat := b ^^^ ((a ^^^ b) &&& abits)

/-- Bitwise complement on uint32: ~x for a 32-bit word. -/
def NOT32 (x : Nat) : Nat := (2 ^ 32 - 1) ^^^ (x % 2 ^ 32)

/-- C macro BITFIELD_SIZE(NBITS) from src/bitfield.h: 4*(((NBITS-1)/32)+1).
On `Nat`, `0 - 1 = 0`, which matches the C evaluation of the macro at a
signed-integer argument 0 (where (0-1)/32 truncates to 0). -/
def BITFIELD_SIZE (NBITS : Nat) : Nat := 4 * ((NBITS - 1) / 32 + 1)

/-- The bitfield_t struct of src/bitfield.h: `field` is the storage region
viewed as 32-bit words, `size` the bit capacity, `nSlots` the slot count. -/
structure bitfield_t where
  field : List Nat
  size : Nat
  nSlots : Nat
deriving Repr, DecidableEq

/-- bitfield_setup: field = area; size = area_size*8; nSlots = area_size/4. -/
def bitfield_setup (area : List Nat) (area_size : Nat) : bitfield_t :=
  { field := area, size := area_size * 8, nSlots := area_size / 4 }

/-- bitfield_read_bit: (0u != BITGET(instance, index)) ? 1u : 0u, where
BITGET(a,b) = (a->field[BITSLOT(b)] >> (b % LONG_BIT)) & 1UL. -/
def bitfield_read_bit (bf : bitfield_t) (index : Nat) : Nat :=
  if (bf.field.getD (BITSLOT index) 0 >>> (index % LONG_BIT)) &&& 1 ≠ 0 then 1 else 0

/-- bitfield_set_bit: BITSET(instance, index), i.e. field[slot] |= BITMASK(index). -/
def bitfield_set_bit (bf : bitfield_t) (index : Nat) : bitfield_t :=
  let s := bf.field.getD (BITSLOT index) 0
  { bf with field := bf.field.set (BITSLOT index) (s ||| BITMASK index) }

/-- bitfield_clear_bit: BITCLEAR(instance, index), i.e. field[slot] &= ~BITMASK(index). -/
def bitfield_clear_bit (bf : bitfield_t) (index : Nat) : bitfield_t :=
  let s := bf.field.getD (BITSLOT index) 0
  { bf with field := bf.field.set (BITSLOT index) (s &&& NOT32 (BITMASK index)) }

/-- bitfield_toggle_bit: BITTOGGLE(instance, index), i.e. field[slot] ^= BITMASK(index). -/
def bitfield_toggle_bit (bf : bitfield_t) (index : Nat) : bitfield_t :=
  let s := bf.field.getD (BITSLOT index) 0
  { bf with field := bf.field.set (BITSLOT index) (s ^^^ BITMASK index) }

/-- bitfield_write_bit: if (0u != value) BITSET else BITCLEAR. The C parameter
is uint8_t; callers that hold a wider value truncate at the call site. -/
def bitfield_write_bit (bf : bitfield_t) (index : Nat) (value : Nat) : bitfield_t :=
  if value ≠ 0 then bitfield_set_bit bf index else bitfield_clear_bit bf index

/-- bitfield_read_uint32: result = field[slot] >> of; if of != 0 and
index + (32 - of) < size, fold in field[slot+1] << (32 - of) (uint32 shift,
hence the mod 2^32). -/
def bitfield_read_uint32 (bf : bitfield_t) (index : Nat) : Nat :=
  let slot := BITSLOT index
  let of := BITOFFSET index
  let result := bf.field.getD slot 0 >>> of
  let bits_taken := 32 - of
  if of ≠ 0 ∧ index + bits_taken < bf.size then
    result ||| ((bf.field.getD (slot + 1) 0 <<< bits_taken) % 2 ^ 32)
  else
    result

/-- bitfield_write_uint32. The C parameter is uint32_t, modelled by reducing
`value` mod 2^32 on entry. If of == 0: field[slot] = value. Else:
field[slot] = (value << of) | (field[slot] & BITMASK32(of)), and when
slot+1 < nSlots also field[slot+1] = (value >> (32-of)) | (field[slot+1] & ~mask). -/
def bitfield_write_uint32 (bf : bitfield_t) (index : Nat) (value : Nat) : bitfield_t :=
  let value := value % 2 ^ 32
  let slot := BITSLOT index
  let of := BITOFFSET index
  if of = 0 then
    { bf with field := bf.field.set slot value }
  else
    let mask := BITMASK32 of
    let w0 := ((value <<< of) % 2 ^ 32) ||| (bf.field.getD slot 0 &&& mask)
    let f1 := bf.field.set slot w0
    if slot + 1 < bf.nSlots then
      let w1 := (value >>> (32 - of)) ||| (f1.getD (slot + 1) 0 &&& NOT32 mask)
      { bf with field := f1.set (slot + 1) w1 }
    else
      { bf with field := f1 }

/-- bitfield_read_uintn: 0 if xbits > 32; delegate at xbits = 1 and 32;
otherwise read a 32-bit word and mask to the low xbits bits via
~0u >> (32 - xbits). -/
def bitfield_read_uintn (bf : bitfield_t) (index xbits : Nat) : Nat :=
  if xbits ≤ 32 then
    if xbits = 1 then bitfield_read_bit bf index
    else if xbits = 32 then bitfield_read_uint32 bf index
    else bitfield_read_uint32 bf index &&& ((2 ^ 32 - 1) >>> (32 - xbits))
  else 0

/-- bitfield_write_uintn: no-op if xbits > 32; at xbits = 1 delegate to
bitfield_write_bit with (uint8_t)value, i.e. value % 2^8; at xbits = 32
delegate to bitfield_write_uint32; otherwise merge value into the existing
word w through BITMASKMERGE with mask = ~0u << xbits and write the word back. -/
def bitfield_write_uintn (bf : bitfield_t) (index value xbits : Nat) : bitfield_t :=
  if xbits ≤ 32 then
    if xbits = 1 then bitfield_write_bit bf index (value % 2 ^ 8)
    else if xbits = 32 then bitfield_write_uint32 bf index value
    else
      let w := bitfield_read_uint32 bf index
      let value := value &&& ((2 ^ 32 - 1) >>> (32 - xbits))
      let mask := ((2 ^ 32 - 1) <<< xbits) % 2 ^ 32
      bitfield_write_uint32 bf index (BITMASKMERGE w value mask)
  else bf

/-- A 32-bit float modelled by its IEEE-754 bit pattern: both C float bridges
move the pattern with memcpy and never perform numeric float operations, so
the pattern is the whole state of a float value here. -/
structure float32 where
  bits : Nat
deriving Repr, DecidableEq

/-- memcpy(&fval, &p, 4) reinterpreting a uint32 pattern as a float. -/
def bits_to_float (p : Nat) : float32 := ⟨p % 2 ^ 32⟩

/-- memcpy(&rval, &f, 4) reinterpreting a float as its uint32 pattern. -/
def float_to_bits (f : float32) : Nat := f.bits

/-- bitfield_read_float: rval = bitfield_read_uint32(instance, index);
memcpy(&fval, &rval, 4); return fval. -/
def bitfield_read_float (bf : bitfield_t) (index : Nat) : float32 :=
  ⟨bitfield_read_uint32 bf index⟩

/-- bitfield_write_float: memcpy(&fval, &value, 4);
bitfield_write_uint32(instance, index, fval). -/
def bitfield_write_float (bf : bitfield_t) (index : Nat) (value : float32) : bitfield_t :=
  bitfield_write_uint32 bf index value.bits

/-- The backing region as its byte sequence, one 32-bit word at a time,
least-significant byte first (the region the caller handed to setup, as
memcpy sees it on a little-endian host). -/
def bytesOfWords : List Nat → List Nat
  | [] => []
  | w :: rest =>
      (w % 2 ^ 8) :: (w / 2 ^ 8 % 2 ^ 8) :: (w / 2 ^ 16 % 2 ^ 8) ::
        (w / 2 ^ 24 % 2 ^ 8) :: bytesOfWords rest

/-- bitfield_dump: if n <= size/8, memcpy n bytes of the region to dst and
return dst (modelled as `some` of the copied bytes); otherwise return NULL
(`none`) and copy nothing. -/
def bitfield_dump (bf : bitfield_t) (n : Nat) : Option (List Nat) :=
  if n ≤ bf.size / 8 then some ((bytesOfWords bf.field).take n) else none

/-- Well-formed instance, per the spec's data-model invariants: the slot list
really has nSlots slots, the bit capacity is 32 bits per slot (the region was
sized to a multiple of 4 bytes), and every stored word is a uint32 value. -/
def WF (bf : bitfield_t) : Prop :=
  bf.field.length = bf.nSlots ∧ bf.size = 32 * bf.nSlots ∧
    ∀ x ∈ bf.field, x < 2 ^ 32

instance (bf : bitfield_t) : Decidable (WF bf) := by
  unfold WF; infer_instance

/-- The abstract value of bit j of the store: bit (j % 32) of word (j / 32). -/
def bitAt (bf : bitfield_t) (j : Nat) : Bool :=
  Nat.testBit (bf.field.getD (j / 32) 0) (j % 32)

/-! Basic facts about the mask macros and the storage words. -/

theorem testBit_eq_false_of_lt32 {v k : Nat} (hv : v < 2 ^ 32) (hk : 32 ≤ k) :
    v.testBit k = false :=
  Nat.testBit_lt_two_pow (lt_of_lt_of_le hv (Nat.pow_le_pow_right (by norm_num) hk))

theorem BITMASK32_lt (n : Nat) : BITMASK32 n < 2 ^ 32 := by
  unfold BITMASK32
  by_cases h : n = 0
  · simp [h]
  · simp only [h, if_pos, ne_eq, not_false_eq_true, ite_true]
    calc (2 ^ 32 - 1) >>> (32 - n) ≤ 2 ^ 32 - 1 := by
          rw [Nat.shiftRight_eq_div_pow]; exact Nat.div_le_self _ _
      _ < 2 ^ 32 := by norm_num

theorem testBit_BITMASK32 {n : Nat} (hn : n ≤ 32) (p : Nat) :
    (BITMASK32 n).testBit p = decide (p < n) := by
  unfold BITMASK32
  by_cases h : n = 0
  · simp [h]
  · simp only [h, if_pos, ne_eq, not_false_eq_true, ite_true]
    rw [Nat.testBit_shiftRight, Nat.testBit_two_pow_sub_one]
    exact decide_eq_decide.mpr (by omega)

theorem testBit_NOT32_BITMASK32 {n : Nat} (hn : n ≤ 32) (p : Nat) :
    (NOT32 (BITMASK32 n)).testBit p = decide (n ≤ p ∧ p < 32) := by
  unfold NOT32
  rw [Nat.mod_eq_of_lt (BITMASK32_lt n), Nat.testBit_xor,
    Nat.testBit_two_pow_sub_one, testBit_BITMASK32 hn]
  by_cases h1 : p < n <;> by_cases h2 : p < 32 <;> simp [h1, h2] <;> omega

theorem getD_lt {bf : bitfield_t} (hWF : WF bf) (m : Nat) :
    bf.field.getD m 0 < 2 ^ 32 := by
  rcases Nat.lt_or_ge m bf.field.length with h | h
  · rw [List.getD_eq_getElem _ _ h]
    exact hWF.2.2 _ (List.getElem_mem h)
  · rw [List.getD_eq_default _ _ h]; norm_num

theorem read_bit_eq_bitAt (bf : bitfield_t) (j : Nat) :
    bitfield_read_bit bf j = if bitAt bf j then 1 else 0 := by
  unfold bitfield_read_bit bitAt BITSLOT LONG_BIT
  rw [Nat.and_one_is_mod, Nat.shiftRight_eq_div_pow, Nat.testBit_to_div_mod]
  rcases Nat.mod_two_eq_zero_or_one (bf.field.getD (j / 32) 0 / 2 ^ (j % 32)) with h | h <;>
    simp [h]

/-! Pointwise description of the two words a straddling 32-bit write produces. -/

theorem testBit_spliceLow {v s of : Nat} (hof : of < 32) (p : Nat) :
    ((((v <<< of) % 2 ^ 32) ||| (s &&& BITMASK32 of))).testBit p =
      (if p < of then s.testBit p else if p < 32 then v.testBit (p - of) else false) := by
  rw [Nat.testBit_or, Nat.testBit_mod_two_pow, Nat.testBit_shiftLeft, Nat.testBit_and,
    testBit_BITMASK32 (Nat.le_of_lt hof)]
  by_cases h1 : p < of <;> by_cases h2 : p < 32 <;> simp [h1, h2] <;> omega

theorem testBit_spliceHigh {v s of : Nat} (hof : of < 32)
    (hv : v < 2 ^ 32) (hs : s < 2 ^ 32) (p : Nat) :
    (((v >>> (32 - of)) ||| (s &&& NOT32 (BITMASK32 of)))).testBit p =
      (if p < of then v.testBit (32 - of + p) else s.testBit p) := by
  rw [Nat.testBit_or, Nat.testBit_shiftRight, Nat.testBit_and,
    testBit_NOT32_BITMASK32 (Nat.le_of_lt hof)]
  by_cases h1 : p < of
  · have hno : ¬(of ≤ p ∧ p < 32) := by omega
    simp [h1, hno]
  · by_cases h2 : p < 32
    · have hv' : v.testBit (32 - of + p) = false := testBit_eq_false_of_lt32 hv (by omega)
      have hle : of ≤ p := Nat.not_lt.mp h1
      simp [h1, h2, hv', hle]
    · have hv' : v.testBit (32 - of + p) = false := testBit_eq_false_of_lt32 hv (by omega)
      have hs' : s.testBit p = false := testBit_eq_false_of_lt32 hs (by omega)
      simp [h1, h2, hv', hs']

theorem getD_set_self {l : List Nat} {k : Nat} (a : Nat) (h : k < l.length) :
    (l.set k a).getD k 0 = a := by
  simp [List.getD_eq_getElem?_getD, List.getElem?_set_self h]

theorem getD_set_ne {l : List Nat} {k j : Nat} (a : Nat) (h : k ≠ j) :
    (l.set k a).getD j 0 = l.getD j 0 := by
  simp [List.getD_eq_getElem?_getD, List.getElem?_set_ne h]

theorem NOT32_lt (x : Nat) : NOT32 x < 2 ^ 32 :=
  Nat.xor_lt_two_pow (by norm_num) (Nat.mod_lt _ (by norm_num))

theorem testBit_BITMASK (b p : Nat) : (BITMASK b).testBit p = decide (p = b % 32) := by
  unfold BITMASK LONG_BIT
  rw [Nat.shiftLeft_eq, one_mul, Nat.testBit_two_pow]
  exact decide_eq_decide.mpr (by omega)

theorem BITMASK_eq (b : Nat) : BITMASK b = 2 ^ (b % 32) := by
  unfold BITMASK LONG_BIT
  rw [Nat.shiftLeft_eq, one_mul]

theorem BITMASK_lt (b : Nat) : BITMASK b < 2 ^ 32 := by
  rw [BITMASK_eq]
  exact Nat.pow_lt_pow_right (by norm_num) (Nat.mod_lt _ (by norm_num))

/-- bitfield_write_uint32 preserves well-formedness: slot count and capacity
are untouched and each written word is again a uint32 value. -/
theorem WF_write_uint32 {bf : bitfield_t} (hWF : WF bf) (i v : Nat) :
    WF (bitfield_write_uint32 bf i v) := by
  obtain ⟨hlen, hsize, hmem⟩ := hWF
  have hv' : v % 2 ^ 32 < 2 ^ 32 := Nat.mod_lt _ (by norm_num)
  have hw0 : (((v % 2 ^ 32) <<< (i % 32)) % 2 ^ 32) |||
      (bf.field.getD (i / 32) 0 &&& BITMASK32 (i % 32)) < 2 ^ 32 :=
    Nat.or_lt_two_pow (Nat.mod_lt _ (by norm_num))
      (lt_of_le_of_lt Nat.and_le_right (BITMASK32_lt _))
  unfold bitfield_write_uint32 BITSLOT BITOFFSET LONG_BIT
  by_cases h0 : i % 32 = 0
  · simp only [h0, ite_true]
    refine ⟨by simp [hlen], hsize, ?_⟩
    intro x hx
    rcases List.mem_or_eq_of_mem_set hx with h | h
    · exact hmem _ h
    · subst h; exact hv'
  · simp only [h0, ite_false]
    by_cases h1 : i / 32 + 1 < bf.nSlots <;> simp only [h1, ite_true, ite_false]
    · refine ⟨by simp [hlen], hsize, ?_⟩
      intro x hx
      rcases List.mem_or_eq_of_mem_set hx with h | h
      · rcases List.mem_or_eq_of_mem_set h with h' | h'
        · exact hmem _ h'
        · subst h'; exact hw0
      · subst h
        refine Nat.or_lt_two_pow ?_ (lt_of_le_of_lt Nat.and_le_right (NOT32_lt _))
        calc (v % 2 ^ 32) >>> (32 - i % 32) ≤ v % 2 ^ 32 := by
              rw [Nat.shiftRight_eq_div_pow]; exact Nat.div_le_self _ _
          _ < 2 ^ 32 := hv'
    · refine ⟨by simp [hlen], hsize, ?_⟩
      intro x hx
      rcases List.mem_or_eq_of_mem_set hx with h | h
      · exact hmem _ h
      · subst h; exact hw0

/-- Pointwise reading: bit k of the word bitfield_read_uint32 returns is
exactly bit i + k of the store when that bit is within capacity, and 0
beyond capacity (the deliberate truncation at the end of storage). -/
theorem read_uint32_testBit {bf : bitfield_t} (hWF : WF bf) (i : Nat) {k : Nat}
    (hk : k < 32) :
    (bitfield_read_uint32 bf i).testBit k =
      (if i + k < bf.size then bitAt bf (i + k) else false) := by
  have hlen := hWF.1
  have hsize := hWF.2.1
  unfold bitfield_read_uint32 BITSLOT BITOFFSET LONG_BIT bitAt
  by_cases hc : i % 32 ≠ 0 ∧ i + (32 - i % 32) < bf.size
  · rw [if_pos hc]
    obtain ⟨hc1, hc2⟩ := hc
    rw [Nat.testBit_or, Nat.testBit_shiftRight, Nat.testBit_mod_two_pow,
      Nat.testBit_shiftLeft]
    by_cases hk2 : k < 32 - i % 32
    · have hin : i + k < bf.size := by omega
      have e1 : (i + k) / 32 = i / 32 := by omega
      have e2 : (i + k) % 32 = i % 32 + k := by omega
      rw [if_pos hin, e1, e2]
      simp [Nat.not_le.mpr hk2]
    · have hs0 : (bf.field.getD (i / 32) 0).testBit (i % 32 + k) = false :=
        testBit_eq_false_of_lt32 (getD_lt hWF _) (by omega)
      have hin : i + k < bf.size := by omega
      have e1 : (i + k) / 32 = i / 32 + 1 := by omega
      have e2 : (i + k) % 32 = k - (32 - i % 32) := by omega
      rw [if_pos hin, e1, e2, hs0]
      simp [hk, Nat.not_lt.mp hk2]
  · rw [if_neg hc]
    rw [Nat.testBit_shiftRight]
    push_neg at hc
    by_cases hik : i + k < bf.size
    · rw [if_pos hik]
      have hlt : i % 32 + k < 32 := by
        by_cases h0 : i % 32 = 0
        · omega
        · have := hc h0; omega
      have e1 : (i + k) / 32 = i / 32 := by omega
      have e2 : (i + k) % 32 = i % 32 + k := by omega
      rw [e1, e2]
    · rw [if_neg hik]
      by_cases hbig : 32 ≤ i % 32 + k
      · exact testBit_eq_false_of_lt32 (getD_lt hWF _) hbig
      · have hge : bf.field.length ≤ i / 32 := by omega
        rw [List.getD_eq_default _ _ hge]
        simp

/-- The word bitfield_read_uint32 returns is a uint32 value. -/
theorem read_uint32_lt {bf : bitfield_t} (hWF : WF bf) (i : Nat) :
    bitfield_read_uint32 bf i < 2 ^ 32 := by
  unfold bitfield_read_uint32 BITSLOT BITOFFSET LONG_BIT
  have hres : bf.field.getD (i / 32) 0 >>> (i % 32) < 2 ^ 32 := by
    calc bf.field.getD (i / 32) 0 >>> (i % 32) ≤ bf.field.getD (i / 32) 0 := by
          rw [Nat.shiftRight_eq_div_pow]; exact Nat.div_le_self _ _
      _ < 2 ^ 32 := getD_lt hWF _
  by_cases hc : i % 32 ≠ 0 ∧ i + (32 - i % 32) < bf.size
  · rw [if_pos hc]
    exact Nat.or_lt_two_pow hres
      (Nat.mod_lt (bf.field.getD (i / 32 + 1) 0 <<< (32 - i % 32)) (by norm_num))
  · rw [if_neg hc]
    exact hres

theorem bitfield_t_eq {a b : bitfield_t} (hf : a.field = b.field)
    (hs : a.size = b.size) (hn : a.nSlots = b.nSlots) : a = b := by
  cases a; cases b; simp_all

/-! Structural preservation: no accessor ever reassigns the instance fields. -/

theorem write_uint32_size (bf : bitfield_t) (i v : Nat) :
    (bitfield_write_uint32 bf i v).size = bf.size := by
  unfold bitfield_write_uint32; dsimp only; split_ifs <;> rfl

theorem write_uint32_nSlots (bf : bitfield_t) (i v : Nat) :
    (bitfield_write_uint32 bf i v).nSlots = bf.nSlots := by
  unfold bitfield_write_uint32; dsimp only; split_ifs <;> rfl

theorem write_uint32_length (bf : bitfield_t) (i v : Nat) :
    (bitfield_write_uint32 bf i v).field.length = bf.field.length := by
  unfold bitfield_write_uint32; dsimp only; split_ifs <;> simp

/-- Pointwise writing: within capacity, bitfield_write_uint32 installs the
32 bits of its value at the in-capacity positions of [i, i+32) and leaves
every other bit of the store unchanged. -/
theorem write_uint32_bitAt {bf : bitfield_t} (hWF : WF bf) {i v : Nat}
    (hv : v < 2 ^ 32) (hi : i < bf.size) (j : Nat) (hj : j < bf.size) :
    bitAt (bitfield_write_uint32 bf i v) j =
      (if i ≤ j ∧ j < i + 32 then v.testBit (j - i) else bitAt bf j) := by
  have hlen := hWF.1
  have hsize := hWF.2.1
  have hslot : i / 32 < bf.field.length := by omega
  unfold bitfield_write_uint32 BITSLOT BITOFFSET LONG_BIT bitAt
  rw [Nat.mod_eq_of_lt hv]
  by_cases h0 : i % 32 = 0
  · rw [if_pos h0]
    by_cases hj32 : j / 32 = i / 32
    · rw [hj32, getD_set_self _ hslot]
      have hsp : i ≤ j ∧ j < i + 32 := by omega
      rw [if_pos hsp]
      congr 1
      omega
    · rw [getD_set_ne _ (Ne.symm hj32)]
      have hsp : ¬(i ≤ j ∧ j < i + 32) := by omega
      rw [if_neg hsp]
  · rw [if_neg h0]
    by_cases h1 : i / 32 + 1 < bf.nSlots
    · rw [if_pos h1, getD_set_ne _ (by omega : i / 32 ≠ i / 32 + 1)]
      by_cases hj32a : j / 32 = i / 32 + 1
      · rw [hj32a, getD_set_self _ (by rw [List.length_set]; omega)]
        rw [testBit_spliceHigh (by omega) hv (getD_lt hWF _)]
        by_cases hlow : j % 32 < i % 32
        · rw [if_pos hlow]
          have hsp : i ≤ j ∧ j < i + 32 := by omega
          rw [if_pos hsp]
          congr 1
          omega
        · rw [if_neg hlow]
          have hsp : ¬(i ≤ j ∧ j < i + 32) := by omega
          rw [if_neg hsp]
      · rw [getD_set_ne _ (Ne.symm hj32a)]
        by_cases hj32 : j / 32 = i / 32
        · rw [hj32, getD_set_self _ hslot, testBit_spliceLow (by omega)]
          by_cases hlow : j % 32 < i % 32
          · rw [if_pos hlow]
            have hsp : ¬(i ≤ j ∧ j < i + 32) := by omega
            rw [if_neg hsp]
          · rw [if_neg hlow, if_pos (by omega : j % 32 < 32)]
            have hsp : i ≤ j ∧ j < i + 32 := by omega
            rw [if_pos hsp]
            congr 1
            omega
        · rw [getD_set_ne _ (Ne.symm hj32)]
          have hsp : ¬(i ≤ j ∧ j < i + 32) := by omega
          rw [if_neg hsp]
    · rw [if_neg h1]
      by_cases hj32 : j / 32 = i / 32
      · rw [hj32, getD_set_self _ hslot, testBit_spliceLow (by omega)]
        by_cases hlow : j % 32 < i % 32
        · rw [if_pos hlow]
          have hsp : ¬(i ≤ j ∧ j < i + 32) := by omega
          rw [if_neg hsp]
        · rw [if_neg hlow, if_pos (by omega : j % 32 < 32)]
          have hsp : i ≤ j ∧ j < i + 32 := by omega
          rw [if_pos hsp]
          congr 1
          omega
      · rw [getD_set_ne _ (Ne.symm hj32)]
        have hsp : ¬(i ≤ j ∧ j < i + 32) := by omega
        rw [if_neg hsp]

/-- Two well-formed stores of the same shape that agree on every in-capacity
bit have equal storage. -/
theorem field_eq_of_bitAt_eq {bf bf' : bitfield_t} (hWF : WF bf) (hWF' : WF bf')
    (hlen : bf'.field.length = bf.field.length)
    (h : ∀ j < bf.size, bitAt bf' j = bitAt bf j) : bf'.field = bf.field := by
  apply List.ext_getElem hlen
  intro m h1 h2
  apply Nat.eq_of_testBit_eq
  intro p
  by_cases hp : p < 32
  · have hlen1 := hWF.1
    have hsize1 := hWF.2.1
    have hj : 32 * m + p < bf.size := by omega
    have hb := h _ hj
    unfold bitAt at hb
    have e1 : (32 * m + p) / 32 = m := by omega
    have e2 : (32 * m + p) % 32 = p := by omega
    rw [e1, e2, List.getD_eq_getElem _ _ h1, List.getD_eq_getElem _ _ h2] at hb
    exact hb
  · rw [testBit_eq_false_of_lt32 (hWF'.2.2 _ (List.getElem_mem h1)) (by omega),
      testBit_eq_false_of_lt32 (hWF.2.2 _ (List.getElem_mem h2)) (by omega)]

/-- Word splice round trip: writing a 32-bit value whose whole span lies
within capacity and reading at the same index returns the value exactly. -/
theorem read_write_uint32 {bf : bitfield_t} (hWF : WF bf) {i v : Nat}
    (hv : v < 2 ^ 32) (hspan : i + 32 ≤ bf.size) :
    bitfield_read_uint32 (bitfield_write_uint32 bf i v) i = v := by
  have hWF' := WF_write_uint32 hWF i v
  apply Nat.eq_of_testBit_eq
  intro k
  by_cases hk : k < 32
  · rw [read_uint32_testBit hWF' i hk,
      if_pos (by rw [write_uint32_size]; omega),
      write_uint32_bitAt hWF hv (by omega) _ (by omega),
      if_pos (by omega : i ≤ i + k ∧ i + k < i + 32)]
    congr 1
    omega
  · rw [testBit_eq_false_of_lt32 (read_uint32_lt hWF' i) (by omega),
      testBit_eq_false_of_lt32 hv (by omega)]

/-- Writing back the word just read at the same index is the identity on the
whole instance (the read truncates at exactly the slots the write skips). -/
theorem write_read_uint32_self {bf : bitfield_t} (hWF : WF bf) (i : Nat) :
    bitfield_write_uint32 bf i (bitfield_read_uint32 bf i) = bf := by
  by_cases hi : i < bf.size
  · have hWF' := WF_write_uint32 hWF i (bitfield_read_uint32 bf i)
    apply bitfield_t_eq _ (write_uint32_size ..) (write_uint32_nSlots ..)
    apply field_eq_of_bitAt_eq hWF hWF' (write_uint32_length ..)
    intro j hj
    rw [write_uint32_bitAt hWF (read_uint32_lt hWF i) hi j hj]
    by_cases hsp : i ≤ j ∧ j < i + 32
    · rw [if_pos hsp, read_uint32_testBit hWF i (show j - i < 32 by omega),
        show i + (j - i) = j by omega, if_pos hj]
    · rw [if_neg hsp]
  · have hlen := hWF.1
    have hsize := hWF.2.1
    have hge : bf.field.length ≤ i / 32 := by omega
    have hno : ¬(i / 32 + 1 < bf.nSlots) := by omega
    unfold bitfield_write_uint32 BITSLOT BITOFFSET LONG_BIT
    dsimp only
    by_cases h0 : i % 32 = 0
    · rw [if_pos h0]
      exact bitfield_t_eq (List.set_eq_of_length_le hge) rfl rfl
    · rw [if_neg h0, if_neg hno]
      exact bitfield_t_eq (List.set_eq_of_length_le hge) rfl rfl

/-! Pointwise behavior of the single-bit accessors. -/

theorem set_bit_bitAt {bf : bitfield_t} (hWF : WF bf) {i : Nat} (hi : i < bf.size)
    (j : Nat) :
    bitAt (bitfield_set_bit bf i) j = (if j = i then true else bitAt bf j) := by
  have hlen := hWF.1
  have hsize := hWF.2.1
  have hslot : i / 32 < bf.field.length := by omega
  unfold bitfield_set_bit BITSLOT LONG_BIT bitAt
  dsimp only
  by_cases hj32 : j / 32 = i / 32
  · rw [hj32, getD_set_self _ hslot, Nat.testBit_or, testBit_BITMASK]
    by_cases hji : j = i
    · subst hji
      simp
    · have hne : ¬(j % 32 = i % 32) := by omega
      simp [hji, hne, hj32]
  · rw [getD_set_ne _ (Ne.symm hj32)]
    have hji : ¬(j = i) := by omega
    rw [if_neg hji]

theorem clear_bit_bitAt {bf : bitfield_t} (hWF : WF bf) {i : Nat} (hi : i < bf.size)
    (j : Nat) :
    bitAt (bitfield_clear_bit bf i) j = (if j = i then false else bitAt bf j) := by
  have hlen := hWF.1
  have hsize := hWF.2.1
  have hslot : i / 32 < bf.field.length := by omega
  unfold bitfield_clear_bit BITSLOT LONG_BIT bitAt
  dsimp only
  by_cases hj32 : j / 32 = i / 32
  · rw [hj32, getD_set_self _ hslot, Nat.testBit_and]
    unfold NOT32
    rw [Nat.mod_eq_of_lt (BITMASK_lt i), Nat.testBit_xor,
      Nat.testBit_two_pow_sub_one, testBit_BITMASK]
    by_cases hji : j = i
    · subst hji
      have hlt : j % 32 < 32 := by omega
      simp [hlt]
    · have hne : ¬(j % 32 = i % 32) := by omega
      have hlt : j % 32 < 32 := by omega
      simp [hji, hne, hj32, hlt]
  · rw [getD_set_ne _ (Ne.symm hj32)]
    have hji : ¬(j = i) := by omega
    rw [if_neg hji]

/-! The field-width masks of the uintn accessors. -/

/-- The "safe mask" ~0u >> (32 - w) is the low-w-bits mask. -/
theorem lowmask_eq {w : Nat} (hw : w ≤ 32) : (2 ^ 32 - 1) >>> (32 - w) = 2 ^ w - 1 := by
  apply Nat.eq_of_testBit_eq
  intro p
  rw [Nat.testBit_shiftRight, Nat.testBit_two_pow_sub_one, Nat.testBit_two_pow_sub_one]
  exact decide_eq_decide.mpr (by omega)

/-- BITMASK32(n) is the mask covering exactly the bottom n bits. -/
theorem BITMASK32_eq {n : Nat} (hn : n ≤ 32) : BITMASK32 n = 2 ^ n - 1 := by
  unfold BITMASK32
  by_cases h : n = 0
  · subst h
    simp
  · simp only [h, if_pos, ne_eq, not_false_eq_true, ite_true]
    exact lowmask_eq hn

/-- The write-merge mask ~0u << w keeps exactly the uint32 bits at and above w. -/
theorem testBit_shiftmask (w p : Nat) :
    (((2 ^ 32 - 1) <<< w) % 2 ^ 32).testBit p = decide (w ≤ p ∧ p < 32) := by
  rw [Nat.testBit_mod_two_pow, Nat.testBit_shiftLeft, Nat.testBit_two_pow_sub_one]
  by_cases h1 : p < 32 <;> by_cases h2 : w ≤ p <;> simp [h1, h2] <;> omega

/-- BITMASKMERGE with the mask ~0u << w selects the low w bits from y and the
uint32 bits above them from x. -/
theorem testBit_BITMASKMERGE {x y w : Nat} (hy : y < 2 ^ 32) (p : Nat) :
    (BITMASKMERGE x y (((2 ^ 32 - 1) <<< w) % 2 ^ 32)).testBit p =
      (if p < w then y.testBit p else if p < 32 then x.testBit p else false) := by
  unfold BITMASKMERGE
  rw [Nat.testBit_xor, Nat.testBit_and, testBit_shiftmask, Nat.testBit_xor]
  by_cases h1 : p < w
  · have hno : ¬(w ≤ p ∧ p < 32) := by omega
    simp [h1, hno]
  · by_cases h2 : p < 32
    · have hyes : w ≤ p ∧ p < 32 := by omega
      rw [decide_eq_true hyes, if_neg h1, if_pos h2, Bool.and_true]
      cases x.testBit p <;> cases y.testBit p <;> rfl
    · have hno : ¬(w ≤ p ∧ p < 32) := by omega
      have hy' : y.testBit p = false := testBit_eq_false_of_lt32 hy (by omega)
      simp [h1, h2, hno, hy']

theorem BITMASKMERGE_lt {x y m : Nat} (hy : y < 2 ^ 32) (hm : m < 2 ^ 32) :
    BITMASKMERGE x y m < 2 ^ 32 :=
  Nat.xor_lt_two_pow hy (lt_of_le_of_lt Nat.and_le_right hm)

/-! Structural preservation of the remaining mutating accessors. -/

theorem set_bit_size (bf : bitfield_t) (i : Nat) :
    (bitfield_set_bit bf i).size = bf.size := rfl

theorem set_bit_nSlots (bf : bitfield_t) (i : Nat) :
    (bitfield_set_bit bf i).nSlots = bf.nSlots := rfl

theorem set_bit_length (bf : bitfield_t) (i : Nat) :
    (bitfield_set_bit bf i).field.length = bf.field.length := by
  unfold bitfield_set_bit; simp

theorem clear_bit_size (bf : bitfield_t) (i : Nat) :
    (bitfield_clear_bit bf i).size = bf.size := rfl

theorem clear_bit_nSlots (bf : bitfield_t) (i : Nat) :
    (bitfield_clear_bit bf i).nSlots = bf.nSlots := rfl

theorem clear_bit_length (bf : bitfield_t) (i : Nat) :
    (bitfield_clear_bit bf i).field.length = bf.field.length := by
  unfold bitfield_clear_bit; simp

theorem toggle_bit_size (bf : bitfield_t) (i : Nat) :
    (bitfield_toggle_bit bf i).size = bf.size := rfl

theorem toggle_bit_nSlots (bf : bitfield_t) (i : Nat) :
    (bitfield_toggle_bit bf i).nSlots = bf.nSlots := rfl

theorem toggle_bit_length (bf : bitfield_t) (i : Nat) :
    (bitfield_toggle_bit bf i).field.length = bf.field.length := by
  unfold bitfield_toggle_bit; simp

theorem write_bit_size (bf : bitfield_t) (i v : Nat) :
    (bitfield_write_bit bf i v).size = bf.size := by
  unfold bitfield_write_bit; split_ifs <;> rfl

theorem write_bit_nSlots (bf : bitfield_t) (i v : Nat) :
    (bitfield_write_bit bf i v).nSlots = bf.nSlots := by
  unfold bitfield_write_bit; split_ifs <;> rfl

theorem write_bit_length (bf : bitfield_t) (i v : Nat) :
    (bitfield_write_bit bf i v).field.length = bf.field.length := by
  unfold bitfield_write_bit
  split_ifs
  · exact set_bit_length bf i
  · exact clear_bit_length bf i

theorem write_uintn_size (bf : bitfield_t) (i v w : Nat) :
    (bitfield_write_uintn bf i v w).size = bf.size := by
  unfold bitfield_write_uintn
  split_ifs <;> first
    | rfl
    | exact write_bit_size ..
    | exact write_uint32_size ..

theorem write_uintn_nSlots (bf : bitfield_t) (i v w : Nat) :
    (bitfield_write_uintn bf i v w).nSlots = bf.nSlots := by
  unfold bitfield_write_uintn
  split_ifs <;> first
    | rfl
    | exact write_bit_nSlots ..
    | exact write_uint32_nSlots ..

theorem write_uintn_length (bf : bitfield_t) (i v w : Nat) :
    (bitfield_write_uintn bf i v w).field.length = bf.field.length := by
  unfold bitfield_write_uintn
  split_ifs <;> first
    | rfl
    | exact write_bit_length ..
    | exact write_uint32_length ..

theorem write_float_size (bf : bitfield_t) (i : Nat) (f : float32) :
    (bitfield_write_float bf i f).size = bf.size := write_uint32_size ..

theorem write_float_nSlots (bf : bitfield_t) (i : Nat) (f : float32) :
    (bitfield_write_float bf i f).nSlots = bf.nSlots := write_uint32_nSlots ..

theorem write_float_length (bf : bitfield_t) (i : Nat) (f : float32) :
    (bitfield_write_float bf i f).field.length = bf.field.length := write_uint32_length ..

/-! Concrete stores used to instantiate the theorems below. -/

/-- A 12-byte (96-bit, 3-slot) store with a known pattern, as produced by
bitfield_setup on a BITFIELD_SIZE(96)-byte region. -/
def bf96 : bitfield_t := bitfield_setup [0xAAAAAAAA, 0x55555555, 0xFFFFFFFF] 12

/-- A 4-byte (32-bit, 1-slot) store with all bits set. -/
def bfOnes : bitfield_t := bitfield_setup [0xFFFFFFFF] 4

/-- C1: for every bit index i with i + 32 ≤ bitCapacity and every 32-bit
value v, write-word32(i, v) followed by read-word32(i) returns v, and every
bit outside the span [i, i+32) holds the same value as before the write. -/
theorem C1_word_splice_roundtrip {bf : bitfield_t} (hWF : WF bf) {i v : Nat}
    (hspan : i + 32 ≤ bf.size) (hv : v < 2 ^ 32) :
    bitfield_read_uint32 (bitfield_write_uint32 bf i v) i = v ∧
      ∀ j < bf.size, j < i ∨ i + 32 ≤ j →
        bitfield_read_bit (bitfield_write_uint32 bf i v) j = bitfield_read_bit bf j := by
  refine ⟨read_write_uint32 hWF hv hspan, ?_⟩
  intro j hj hout
  rw [read_bit_eq_bitAt, read_bit_eq_bitAt,
    write_uint32_bitAt hWF hv (by omega) j hj,
    if_neg (by omega : ¬(i ≤ j ∧ j < i + 32))]

theorem C1_word_splice_roundtrip_witness :
    WF bf96 ∧ 20 + 32 ≤ bf96.size ∧ 0xDEADBEEF < 2 ^ 32 ∧
      (bitfield_read_uint32 (bitfield_write_uint32 bf96 20 0xDEADBEEF) 20 = 0xDEADBEEF ∧
        ∀ j < bf96.size, j < 20 ∨ 20 + 32 ≤ j →
          bitfield_read_bit (bitfield_write_uint32 bf96 20 0xDEADBEEF) j =
            bitfield_read_bit bf96 j) :=
  ⟨by decide, by decide, by decide,
    C1_word_splice_roundtrip (by decide) (by decide) (by decide)⟩

/-- C2: for every width w with 1 ≤ w ≤ 32, every i with i + w ≤ bitCapacity
and every v < 2^w, write-field(i, v, w) followed by read-field(i, w) returns
v, and every bit outside the span [i, i+w) holds the same value as before. -/
theorem C2_field_roundtrip {bf : bitfield_t} (hWF : WF bf) {i v w : Nat}
    (hw1 : 1 ≤ w) (hw2 : w ≤ 32) (hspan : i + w ≤ bf.size) (hv : v < 2 ^ w) :
    bitfield_read_uintn (bitfield_write_uintn bf i v w) i w = v ∧
      ∀ j < bf.size, j < i ∨ i + w ≤ j →
        bitfield_read_bit (bitfield_write_uintn bf i v w) j = bitfield_read_bit bf j := by
  by_cases hn1 : w = 1
  · subst hn1
    have hv2 : v < 2 := hv
    have hi : i < bf.size := by omega
    have hw_eq : bitfield_write_uintn bf i v 1 = bitfield_write_bit bf i v := by
      unfold bitfield_write_uintn
      rw [if_pos (by norm_num), if_pos rfl, Nat.mod_eq_of_lt (by omega : v < 2 ^ 8)]
    have hr_eq : ∀ bf', bitfield_read_uintn bf' i 1 = bitfield_read_bit bf' i := by
      intro bf'
      unfold bitfield_read_uintn
      rw [if_pos (by norm_num), if_pos rfl]
    rw [hw_eq, hr_eq]
    unfold bitfield_write_bit
    interval_cases v
    · rw [if_neg (by norm_num)]
      constructor
      · rw [read_bit_eq_bitAt, clear_bit_bitAt hWF hi, if_pos rfl]
        rfl
      · intro j hj hout
        rw [read_bit_eq_bitAt, read_bit_eq_bitAt, clear_bit_bitAt hWF hi,
          if_neg (by omega : ¬(j = i))]
    · rw [if_pos (by norm_num)]
      constructor
      · rw [read_bit_eq_bitAt, set_bit_bitAt hWF hi, if_pos rfl]
        rfl
      · intro j hj hout
        rw [read_bit_eq_bitAt, read_bit_eq_bitAt, set_bit_bitAt hWF hi,
          if_neg (by omega : ¬(j = i))]
  · by_cases hn32 : w = 32
    · subst hn32
      have hw_eq : bitfield_write_uintn bf i v 32 = bitfield_write_uint32 bf i v := by
        unfold bitfield_write_uintn
        rw [if_pos (by norm_num), if_neg (by norm_num), if_pos rfl]
      have hr_eq : ∀ bf', bitfield_read_uintn bf' i 32 = bitfield_read_uint32 bf' i := by
        intro bf'
        unfold bitfield_read_uintn
        rw [if_pos (by norm_num), if_neg (by norm_num), if_pos rfl]
      rw [hw_eq, hr_eq]
      refine ⟨read_write_uint32 hWF hv hspan, ?_⟩
      intro j hj hout
      rw [read_bit_eq_bitAt, read_bit_eq_bitAt,
        write_uint32_bitAt hWF hv (by omega) j hj,
        if_neg (by omega : ¬(i ≤ j ∧ j < i + 32))]
    · have hvlt : v < 2 ^ 32 := lt_of_lt_of_le hv (Nat.pow_le_pow_right (by norm_num) hw2)
      have hmask : v &&& ((2 ^ 32 - 1) >>> (32 - w)) = v := by
        rw [lowmask_eq hw2, Nat.and_pow_two_sub_one_eq_mod, Nat.mod_eq_of_lt hv]
      have hw_eq : bitfield_write_uintn bf i v w =
          bitfield_write_uint32 bf i
            (BITMASKMERGE (bitfield_read_uint32 bf i) v (((2 ^ 32 - 1) <<< w) % 2 ^ 32)) := by
        unfold bitfield_write_uintn
        rw [if_pos hw2, if_neg hn1, if_neg hn32, hmask]
      have hmerged : BITMASKMERGE (bitfield_read_uint32 bf i) v
          (((2 ^ 32 - 1) <<< w) % 2 ^ 32) < 2 ^ 32 :=
        BITMASKMERGE_lt hvlt (Nat.mod_lt _ (by norm_num))
      have hWF' := WF_write_uint32 hWF i
        (BITMASKMERGE (bitfield_read_uint32 bf i) v (((2 ^ 32 - 1) <<< w) % 2 ^ 32))
      constructor
      · rw [hw_eq]
        have hr_eq : bitfield_read_uintn (bitfield_write_uint32 bf i
              (BITMASKMERGE (bitfield_read_uint32 bf i) v (((2 ^ 32 - 1) <<< w) % 2 ^ 32))) i w =
            bitfield_read_uint32 (bitfield_write_uint32 bf i
              (BITMASKMERGE (bitfield_read_uint32 bf i) v (((2 ^ 32 - 1) <<< w) % 2 ^ 32))) i &&&
              ((2 ^ 32 - 1) >>> (32 - w)) := by
          unfold bitfield_read_uintn
          rw [if_pos hw2, if_neg hn1, if_neg hn32]
        rw [hr_eq, lowmask_eq hw2]
        apply Nat.eq_of_testBit_eq
        intro k
        rw [Nat.testBit_and, Nat.testBit_two_pow_sub_one]
        by_cases hk : k < w
        · rw [read_uint32_testBit hWF' i (by omega),
            if_pos (by rw [write_uint32_size]; omega),
            write_uint32_bitAt hWF hmerged (by omega) _ (by omega),
            if_pos (by omega : i ≤ i + k ∧ i + k < i + 32),
            show i + k - i = k by omega,
            testBit_BITMASKMERGE hvlt, if_pos hk]
          simp [hk]
        · have hvk : v.testBit k = false :=
            Nat.testBit_lt_two_pow
              (lt_of_lt_of_le hv (Nat.pow_le_pow_right (by norm_num) (by omega)))
          simp [hk, hvk]
      · intro j hj hout
        rw [hw_eq, read_bit_eq_bitAt, read_bit_eq_bitAt,
          write_uint32_bitAt hWF hmerged (by omega) j hj]
        by_cases hsp : i ≤ j ∧ j < i + 32
        · rw [if_pos hsp, testBit_BITMASKMERGE hvlt,
            if_neg (by omega : ¬(j - i < w)), if_pos (by omega : j - i < 32),
            read_uint32_testBit hWF i (by omega : j - i < 32),
            show i + (j - i) = j by omega, if_pos hj]
        · rw [if_neg hsp]

theorem C2_field_roundtrip_witness :
    WF bf96 ∧ 1 ≤ 4 ∧ 4 ≤ 32 ∧ 30 + 4 ≤ bf96.size ∧ 0xF < 2 ^ 4 ∧
      (bitfield_read_uintn (bitfield_write_uintn bf96 30 0xF 4) 30 4 = 0xF ∧
        ∀ j < bf96.size, j < 30 ∨ 30 + 4 ≤ j →
          bitfield_read_bit (bitfield_write_uintn bf96 30 0xF 4) j =
            bitfield_read_bit bf96 j) :=
  ⟨by decide, by decide, by decide, by decide, by decide,
    C2_field_roundtrip (by decide) (by decide) (by decide) (by decide) (by decide)⟩

/-- C3: a straddling write-word32 (offset ≠ 0) installs
(v << offset) | (storage[slot] & low_mask) into storage[slot], updates
storage[slot+1] only when slot + 1 < slotCount, and when slot + 1 is out of
range it silently drops the high remainder, modifying no other slot. -/
theorem C3_write_word32_straddle {bf : bitfield_t} (hWF : WF bf) {i v : Nat}
    (hv : v < 2 ^ 32) (hi : i < bf.size) (hof : i % 32 ≠ 0) :
    ((bitfield_write_uint32 bf i v).field.getD (i / 32) 0 =
        ((v <<< (i % 32)) % 2 ^ 32) ||| (bf.field.getD (i / 32) 0 &&& (2 ^ (i % 32) - 1))) ∧
      (i / 32 + 1 < bf.nSlots →
        (bitfield_write_uint32 bf i v).field.getD (i / 32 + 1) 0 =
          (v >>> (32 - i % 32)) |||
            (bf.field.getD (i / 32 + 1) 0 &&& NOT32 (2 ^ (i % 32) - 1))) ∧
      (bf.nSlots ≤ i / 32 + 1 →
        ∀ j, j ≠ i / 32 →
          (bitfield_write_uint32 bf i v).field.getD j 0 = bf.field.getD j 0) ∧
      (∀ j, j ≠ i / 32 → j ≠ i / 32 + 1 →
        (bitfield_write_uint32 bf i v).field.getD j 0 = bf.field.getD j 0) := by
  have hlen := hWF.1
  have hsize := hWF.2.1
  have hslot : i / 32 < bf.field.length := by omega
  unfold bitfield_write_uint32 BITSLOT BITOFFSET LONG_BIT
  dsimp only
  rw [Nat.mod_eq_of_lt hv, if_neg hof,
    show BITMASK32 (i % 32) = 2 ^ (i % 32) - 1 from BITMASK32_eq (by omega)]
  by_cases h1 : i / 32 + 1 < bf.nSlots
  · rw [if_pos h1]
    refine ⟨?_, ?_, ?_, ?_⟩
    · rw [getD_set_ne _ (by omega : i / 32 + 1 ≠ i / 32), getD_set_self _ hslot]
    · intro _
      rw [getD_set_self _ (by rw [List.length_set]; omega),
        getD_set_ne _ (by omega : i / 32 ≠ i / 32 + 1)]
    · intro habs
      omega
    · intro j hj1 hj2
      rw [getD_set_ne _ (Ne.symm hj2), getD_set_ne _ (Ne.symm hj1)]
  · rw [if_neg h1]
    refine ⟨?_, ?_, ?_, ?_⟩
    · rw [getD_set_self _ hslot]
    · intro habs
      exact absurd habs h1
    · intro _ j hj
      rw [getD_set_ne _ (Ne.symm hj)]
    · intro j hj _
      rw [getD_set_ne _ (Ne.symm hj)]

theorem C3_write_word32_straddle_witness :
    WF bf96 ∧ 0xDEADBEEF < 2 ^ 32 ∧ 33 < bf96.size ∧ 33 % 32 ≠ 0 ∧
      (((bitfield_write_uint32 bf96 33 0xDEADBEEF).field.getD (33 / 32) 0 =
          ((0xDEADBEEF <<< (33 % 32)) % 2 ^ 32) |||
            (bf96.field.getD (33 / 32) 0 &&& (2 ^ (33 % 32) - 1))) ∧
        (33 / 32 + 1 < bf96.nSlots →
          (bitfield_write_uint32 bf96 33 0xDEADBEEF).field.getD (33 / 32 + 1) 0 =
            (0xDEADBEEF >>> (32 - 33 % 32)) |||
              (bf96.field.getD (33 / 32 + 1) 0 &&& NOT32 (2 ^ (33 % 32) - 1))) ∧
        (bf96.nSlots ≤ 33 / 32 + 1 →
          ∀ j, j ≠ 33 / 32 →
            (bitfield_write_uint32 bf96 33 0xDEADBEEF).field.getD j 0 =
              bf96.field.getD j 0) ∧
        (∀ j, j ≠ 33 / 32 → j ≠ 33 / 32 + 1 →
          (bitfield_write_uint32 bf96 33 0xDEADBEEF).field.getD j 0 =
            bf96.field.getD j 0)) :=
  ⟨by decide, by decide, by decide, by decide,
    C3_write_word32_straddle (by decide) (by decide) (by decide) (by decide)⟩

/-- C4: read-word32(i) returns storage[slot] >> offset, folding in
storage[slot+1] << (32 - offset) exactly when offset ≠ 0 and the bit
i + (32 - offset) is still within capacity; when offset is 0 or the next
slot would exceed capacity the shifted first word is returned as-is. -/
theorem C4_read_word32_formula (bf : bitfield_t) (i : Nat) :
    (i % 32 ≠ 0 ∧ i + (32 - i % 32) < bf.size →
        bitfield_read_uint32 bf i =
          (bf.field.getD (i / 32) 0 >>> (i % 32)) |||
            ((bf.field.getD (i / 32 + 1) 0 <<< (32 - i % 32)) % 2 ^ 32)) ∧
      (i % 32 = 0 ∨ bf.size ≤ i + (32 - i % 32) →
        bitfield_read_uint32 bf i = bf.field.getD (i / 32) 0 >>> (i % 32)) := by
  unfold bitfield_read_uint32 BITSLOT BITOFFSET LONG_BIT
  constructor
  · intro hc
    rw [if_pos hc]
  · intro hc
    rw [if_neg (by omega : ¬(i % 32 ≠ 0 ∧ i + (32 - i % 32) < bf.size))]

/-- C5: for every width outside 1..32 (including width 0) and every index,
read-field returns 0 and write-field leaves the entire store unchanged. -/
theorem C5_invalid_width {bf : bitfield_t} (hWF : WF bf) {w : Nat}
    (hw : w = 0 ∨ 32 < w) (i v : Nat) :
    bitfield_read_uintn bf i w = 0 ∧ bitfield_write_uintn bf i v w = bf := by
  rcases hw with hw | hw
  · subst hw
    constructor
    · unfold bitfield_read_uintn
      rw [if_pos (by norm_num), if_neg (by norm_num), if_neg (by norm_num)]
      have hz : (2 ^ 32 - 1) >>> (32 - 0) = 0 := by decide
      rw [hz, Nat.and_zero]
    · unfold bitfield_write_uintn
      rw [if_pos (by norm_num), if_neg (by norm_num), if_neg (by norm_num)]
      have hz : v &&& ((2 ^ 32 - 1) >>> (32 - 0)) = 0 := by
        rw [show (2 ^ 32 - 1) >>> (32 - 0) = 0 by decide, Nat.and_zero]
      have hm : ((2 ^ 32 - 1) <<< 0) % 2 ^ 32 = 2 ^ 32 - 1 := by decide
      rw [hz, hm]
      dsimp only
      have h3 : BITMASKMERGE (bitfield_read_uint32 bf i) 0 (2 ^ 32 - 1) =
          bitfield_read_uint32 bf i := by
        unfold BITMASKMERGE
        rw [Nat.zero_xor, Nat.xor_zero, Nat.and_pow_two_sub_one_eq_mod,
          Nat.mod_eq_of_lt (read_uint32_lt hWF i)]
      rw [h3]
      exact write_read_uint32_self hWF i
  · constructor
    · unfold bitfield_read_uintn
      rw [if_neg (by omega)]
    · unfold bitfield_write_uintn
      rw [if_neg (by omega)]

theorem C5_invalid_width_witness :
    WF bf96 ∧ ((0 : Nat) = 0 ∨ 32 < 0) ∧
      (bitfield_read_uintn bf96 7 0 = 0 ∧ bitfield_write_uintn bf96 7 123 0 = bf96) :=
  ⟨by decide, Or.inl rfl, C5_invalid_width (by decide) (Or.inl rfl) 7 123⟩

/-- C6 counterexample: the claim quantifies over every n, but at n = 0 the
macro allocates 4 bytes, so the resulting capacity is 32, which is not
< 0 + 32. -/
theorem C6_counterexample :
    ¬((bitfield_setup [0] (BITFIELD_SIZE 0)).size < 0 + 32) := by decide

/-- C6 amended: for every n ≥ 1, a region of BITFIELD_SIZE(n) bytes run
through setup yields a store whose bit capacity is ≥ n and < n + 32. -/
theorem C6_capacity_formula {n : Nat} (hn : 1 ≤ n) (area : List Nat) :
    n ≤ (bitfield_setup area (BITFIELD_SIZE n)).size ∧
      (bitfield_setup area (BITFIELD_SIZE n)).size < n + 32 := by
  unfold bitfield_setup BITFIELD_SIZE
  dsimp only
  omega

theorem C6_capacity_formula_witness :
    1 ≤ 5 ∧ (5 ≤ (bitfield_setup [] (BITFIELD_SIZE 5)).size ∧
      (bitfield_setup [] (BITFIELD_SIZE 5)).size < 5 + 32) :=
  ⟨by decide, C6_capacity_formula (by decide) []⟩

/-- The byte region has 4 bytes per storage word. -/
theorem bytesOfWords_length (l : List Nat) : (bytesOfWords l).length = 4 * l.length := by
  induction l with
  | nil => rfl
  | cons w rest ih =>
      unfold bytesOfWords
      simp only [List.length_cons, ih]
      omega

/-- C7: dump succeeds exactly when n does not exceed the store's byte
capacity bitCapacity / 8; on success it returns the first n bytes of the
backing region verbatim (and exactly n bytes), on failure it returns the
null indicator and copies nothing. -/
theorem C7_dump {bf : bitfield_t} (hWF : WF bf) (n : Nat) :
    (n ≤ bf.size / 8 →
        bitfield_dump bf n = some ((bytesOfWords bf.field).take n) ∧
          ∀ out, bitfield_dump bf n = some out → out.length = n) ∧
      (bf.size / 8 < n → bitfield_dump bf n = none) := by
  have hlen := hWF.1
  have hsize := hWF.2.1
  constructor
  · intro h
    have heq : bitfield_dump bf n = some ((bytesOfWords bf.field).take n) := by
      unfold bitfield_dump
      rw [if_pos h]
    refine ⟨heq, ?_⟩
    intro out hout
    rw [heq] at hout
    obtain rfl : (bytesOfWords bf.field).take n = out := Option.some.inj hout
    rw [List.length_take, bytesOfWords_length]
    omega
  · intro h
    unfold bitfield_dump
    rw [if_neg (by omega)]

theorem C7_dump_witness :
    WF bf96 ∧
      ((12 ≤ bf96.size / 8 →
          bitfield_dump bf96 12 = some ((bytesOfWords bf96.field).take 12) ∧
            ∀ out, bitfield_dump bf96 12 = some out → out.length = 12) ∧
        (bf96.size / 8 < 12 → bitfield_dump bf96 12 = none)) :=
  ⟨by decide, C7_dump (by decide) 12⟩

/-- C8 counterexample: at v = 256 (non-zero) the width-1 write clears the
bit at index 0 of an all-ones store instead of setting it, because the code
first truncates the value to uint8_t. -/
theorem C8_counterexample :
    (256 : Nat) ≠ 0 ∧ bitfield_read_bit (bitfield_write_uintn bfOnes 0 256 1) 0 = 0 := by
  constructor
  · decide
  · decide

/-- C8 amended: write-field at width 1 delegates to the single-bit writer
with the value truncated to uint8_t, so the bit at i becomes 1 exactly when
v mod 256 is non-zero and 0 exactly when v mod 256 is zero. -/
theorem C8_width1_delegation {bf : bitfield_t} (hWF : WF bf) {i : Nat}
    (hi : i < bf.size) (v : Nat) :
    bitfield_write_uintn bf i v 1 = bitfield_write_bit bf i (v % 2 ^ 8) ∧
      bitfield_read_bit (bitfield_write_uintn bf i v 1) i =
        (if v % 2 ^ 8 ≠ 0 then 1 else 0) := by
  have heq : bitfield_write_uintn bf i v 1 = bitfield_write_bit bf i (v % 2 ^ 8) := by
    unfold bitfield_write_uintn
    rw [if_pos (by norm_num), if_pos rfl]
  refine ⟨heq, ?_⟩
  rw [heq]
  unfold bitfield_write_bit
  by_cases hz : v % 2 ^ 8 ≠ 0
  · rw [if_pos hz, if_pos hz, read_bit_eq_bitAt, set_bit_bitAt hWF hi, if_pos rfl]
    rfl
  · rw [if_neg hz, if_neg hz, read_bit_eq_bitAt, clear_bit_bitAt hWF hi, if_pos rfl]
    rfl

theorem C8_width1_delegation_witness :
    WF bfOnes ∧ 0 < bfOnes.size ∧
      (bitfield_write_uintn bfOnes 0 256 1 = bitfield_write_bit bfOnes 0 (256 % 2 ^ 8) ∧
        bitfield_read_bit (bitfield_write_uintn bfOnes 0 256 1) 0 =
          (if 256 % 2 ^ 8 ≠ 0 then 1 else 0)) :=
  ⟨by decide, by decide, C8_width1_delegation (by decide) (by decide) 256⟩

/-- C9: for every i with i + 32 ≤ bitCapacity and every 32-bit pattern p
(NaN and infinity encodings included, since the bridge moves raw patterns),
write-float of the pattern followed by read-float returns exactly p. -/
theorem C9_float_identity {bf : bitfield_t} (hWF : WF bf) {i p : Nat}
    (hspan : i + 32 ≤ bf.size) (hp : p < 2 ^ 32) :
    float_to_bits (bitfield_read_float (bitfield_write_float bf i (bits_to_float p)) i) = p := by
  unfold bits_to_float bitfield_write_float bitfield_read_float float_to_bits
  dsimp only
  rw [Nat.mod_eq_of_lt hp]
  exact read_write_uint32 hWF hp hspan

theorem C9_float_identity_witness :
    WF bf96 ∧ 3 + 32 ≤ bf96.size ∧ 0x7FC00001 < 2 ^ 32 ∧
      float_to_bits (bitfield_read_float
        (bitfield_write_float bf96 3 (bits_to_float 0x7FC00001)) 3) = 0x7FC00001 :=
  ⟨by decide, by decide, by decide,
    C9_float_identity (by decide) (by decide) (by decide)⟩

/-- C10: every mutating operation of the library leaves the instance's own
fields intact: the capacity size and slot count nSlots are unchanged and the
storage stays the same region (same slot list length, never rebound); the
read accessors and dump are pure functions of the instance and return values
without touching it, and only setup assigns the three fields. -/
theorem C10_instance_fields_invariant (bf : bitfield_t) (i v w : Nat) (f : float32) :
    ((bitfield_set_bit bf i).size = bf.size ∧
        (bitfield_set_bit bf i).nSlots = bf.nSlots ∧
        (bitfield_set_bit bf i).field.length = bf.field.length) ∧
      ((bitfield_clear_bit bf i).size = bf.size ∧
        (bitfield_clear_bit bf i).nSlots = bf.nSlots ∧
        (bitfield_clear_bit bf i).field.length = bf.field.length) ∧
      ((bitfield_toggle_bit bf i).size = bf.size ∧
        (bitfield_toggle_bit bf i).nSlots = bf.nSlots ∧
        (bitfield_toggle_bit bf i).field.length = bf.field.length) ∧
      ((bitfield_write_bit bf i v).size = bf.size ∧
        (bitfield_write_bit bf i v).nSlots = bf.nSlots ∧
        (bitfield_write_bit bf i v).field.length = bf.field.length) ∧
      ((bitfield_write_uint32 bf i v).size = bf.size ∧
        (bitfield_write_uint32 bf i v).nSlots = bf.nSlots ∧
        (bitfield_write_uint32 bf i v).field.length = bf.field.length) ∧
      ((bitfield_write_uintn bf i v w).size = bf.size ∧
        (bitfield_write_uintn bf i v w).nSlots = bf.nSlots ∧
        (bitfield_write_uintn bf i v w).field.length = bf.field.length) ∧
      ((bitfield_write_float bf i f).size = bf.size ∧
        (bitfield_write_float bf i f).nSlots = bf.nSlots ∧
        (bitfield_write_float bf i f).field.length = bf.field.length) :=
  ⟨⟨set_bit_size .., set_bit_nSlots .., set_bit_length ..⟩,
    ⟨clear_bit_size .., clear_bit_nSlots .., clear_bit_length ..⟩,
    ⟨toggle_bit_size .., toggle_bit_nSlots .., toggle_bit_length ..⟩,
    ⟨write_bit_size .., write_bit_nSlots .., write_bit_length ..⟩,
    ⟨write_uint32_size .., write_uint32_nSlots .., write_uint32_length ..⟩,
    ⟨write_uintn_size .., write_uintn_nSlots .., write_uintn_length ..⟩,
    ⟨write_float_size .., write_float_nSlots .., write_float_length ..⟩⟩

end BitField
